import Mathlib

/-!
# Verification of the `send` chunked-transfer core

A shallow embedding of the chunked upload/download core of the `send`
repository:

* `src/server/routes/standardChunkedUpload.js` — server session registry,
  chunk assembler, finalize, cleanup and the periodic session reaper;
* the chunked-upload routes file (status endpoint);
* `src/app/fileSender.js` — the client `ChunkedUploader` (stream chunker,
  bounded-concurrency scheduler, per-chunk retry with exponential backoff);
* the client `FileReceiver.downloadStream` polling loop with hang detection.

JavaScript `Map`s are embedded as association lists with first-match lookup
and in-place replacement on `set` (which is exactly `Map`'s behaviour when
keys are never duplicated; key-uniqueness is proved preserved).  Byte buffers
are `List Nat`; the cryptographic digest is an abstract function parameter.
-/

set_option autoImplicit false

namespace Send

/-! ## JavaScript `Map` as an association list -/

/-- `Map.get`: first entry whose key matches. -/
def mapGet {α β : Type} [DecidableEq α] (k : α) : List (α × β) → Option β
  | [] => none
  | (k', v) :: rest => if k' = k then some v else mapGet k rest

/-- `Map.set`: replace the value at an existing key, else append the new
binding at the end (JS `Map` keeps insertion order). -/
def mapSet {α β : Type} [DecidableEq α] (k : α) (v : β) : List (α × β) → List (α × β)
  | [] => [(k, v)]
  | (k', v') :: rest => if k' = k then (k, v) :: rest else (k', v') :: mapSet k v rest

/-- `Map.delete`: remove the binding for a key, if present. -/
def mapDelete {α β : Type} [DecidableEq α] (k : α) : List (α × β) → List (α × β)
  | [] => []
  | (k', v') :: rest => if k' = k then rest else (k', v') :: mapDelete k rest

/-- `Map.has`. -/
def mapHas {α β : Type} [DecidableEq α] (k : α) (m : List (α × β)) : Bool :=
  (mapGet k m).isSome

/-! ## Server data model (`standardChunkedUpload.js`) -/

/-- `securityConfig` supplied at `init` (defaults to `{}`, whose
`enableVerification` reads back as a falsy `undefined`). -/
structure SecurityConfig where
  enableVerification : Bool := false
  hashAlgorithm : String := "SHA-256"
  deriving Repr, DecidableEq

/-- An upload session as stored in the `uploadSessions` map.  Chunk indices
are `Int` because the server takes them from `parseInt` of a request header
with no range validation.  Chunk bytes are `List Nat`. -/
structure Session where
  uploadId : String
  fileId : String
  totalSize : Nat
  chunkSize : Nat
  totalChunks : Nat
  receivedChunks : Nat
  chunks : List (Int × List Nat)
  createdAt : Nat
  lastActivity : Nat
  timeLimit : Nat
  dlimit : Nat
  securityConfig : SecurityConfig
  deriving Repr, DecidableEq

/-- Server-side mutable state: the session registry plus the durable storage
collaborator, whose `set` and `delete` calls are recorded as logs. -/
structure ServerState where
  uploadSessions : List (String × Session)
  storedFiles : List (String × List Nat)
  deletedFiles : List String
  activeUploads : Int
  totalUploads : Int
  deriving Repr, DecidableEq

/-- The empty registry at server start. -/
def ServerState.initial : ServerState :=
  { uploadSessions := [], storedFiles := [], deletedFiles := [],
    activeUploads := 0, totalUploads := 0 }

/-- The error responses the chunked-upload handlers can produce. -/
inductive UploadError
  | invalidFileMetadata            -- 400 INVALID_FILE_METADATA
  | missingAuthorization           -- 400 MISSING_AUTHORIZATION
  | missingUploadId                -- 400 MISSING_UPLOAD_ID
  | sessionNotFound                -- 404 SESSION_NOT_FOUND
  | noChunkData                    -- 400 NO_CHUNK_DATA
  | integrityError                 -- 400 INTEGRITY_ERROR
  | incompleteUpload (expected received : Nat)  -- 400 INCOMPLETE_UPLOAD
  | finalizeError                  -- 500 FINALIZE_ERROR (thrown Missing chunk)
  deriving Repr, DecidableEq

/-- Response of `initChunkedUpload`. -/
structure InitResponse where
  uploadId : String
  id : String
  totalChunks : Nat
  chunkSize : Nat
  deriving Repr, DecidableEq

/-- Response of `uploadChunk`. -/
structure ChunkResponse where
  uploadId : String
  chunkIndex : Int
  receivedChunks : Nat
  totalChunks : Nat
  isComplete : Bool
  deriving Repr, DecidableEq

/-- Response of `finalizeChunkedUpload`. -/
structure FinalizeResponse where
  fileId : String
  size : Nat
  chunks : Nat
  deriving Repr, DecidableEq

/-- Response of the `/status/:uploadId` route. -/
structure StatusResponse where
  uploadId : String
  receivedChunks : Nat
  totalChunks : Nat
  totalSize : Nat
  lastActivity : Nat
  createdAt : Nat
  isComplete : Bool
  deriving Repr, DecidableEq

/-! ## Server operations -/

/-- `initChunkedUpload`: validates the metadata (a JS-falsy `size`, i.e. `0`,
is rejected) and the authorization, then registers a fresh session with
`totalChunks = ceil(size / chunkSize)` and an empty chunk map.  The random
`uploadId`/`fileId` are parameters of the embedding. -/
def initChunkedUpload (uploadId fileId : String) (fileSize : Nat) (hasAuthorization : Bool)
    (chunkSize : Nat) (timeLimit dlimit : Nat) (securityConfig : SecurityConfig)
    (now : Nat) (st : ServerState) : Except UploadError InitResponse × ServerState :=
  if fileSize = 0 then
    (.error .invalidFileMetadata, st)
  else if ¬ hasAuthorization then
    (.error .missingAuthorization, st)
  else
    let session : Session :=
      { uploadId := uploadId
        fileId := fileId
        totalSize := fileSize
        chunkSize := chunkSize
        totalChunks := (fileSize + chunkSize - 1) / chunkSize
        receivedChunks := 0
        chunks := []
        createdAt := now
        lastActivity := now
        timeLimit := timeLimit
        dlimit := dlimit
        securityConfig := securityConfig }
    (.ok { uploadId := uploadId, id := fileId,
           totalChunks := session.totalChunks, chunkSize := chunkSize },
     { st with uploadSessions := mapSet uploadId session st.uploadSessions,
               activeUploads := st.activeUploads + 1,
               totalUploads := st.totalUploads + 1 })

/-- `uploadChunk`: the chunk assembler's accept operation.  `hash` abstracts
`crypto.createHash(alg).update(data).digest('base64')`; `chunkHash = none`
models a missing (or empty, hence JS-falsy) `X-Chunk-Hash` header; the
digest is recomputed and compared only when a digest was declared *and* the
session's `securityConfig.enableVerification` is set.  On acceptance the
chunk is stored with idempotent overwrite, `receivedChunks` is recomputed as
the chunk-map size and `lastActivity` is refreshed. -/
def uploadChunk (hash : List Nat → String) (uploadId : String) (chunkIndex : Int)
    (chunkHash : Option String) (chunkData : List Nat) (now : Nat) (st : ServerState) :
    Except UploadError ChunkResponse × ServerState :=
  if uploadId = "" then
    (.error .missingUploadId, st)
  else
    match mapGet uploadId st.uploadSessions with
    | none => (.error .sessionNotFound, st)
    | some session =>
      if chunkData.length = 0 then
        (.error .noChunkData, st)
      else if (match chunkHash with
               | some declared =>
                   session.securityConfig.enableVerification && (hash chunkData != declared)
               | none => false : Bool) then
        (.error .integrityError, st)
      else
        let chunks' := mapSet chunkIndex chunkData session.chunks
        let session' := { session with
          chunks := chunks'
          receivedChunks := chunks'.length
          lastActivity := now }
        (.ok { uploadId := uploadId
               chunkIndex := chunkIndex
               receivedChunks := session'.receivedChunks
               totalChunks := session.totalChunks
               isComplete := session'.receivedChunks = session.totalChunks },
         { st with uploadSessions := mapSet uploadId session' st.uploadSessions })

/-- The body of the finalize reconstruction loop, from index `i` up to
`totalChunks - 1`: read the stored chunk at each index, failing on the first
absent one (the thrown `Missing chunk i`). -/
def collectFrom (chunks : List (Int × List Nat)) (totalChunks : Nat) (i : Nat) :
    Option (List (List Nat)) :=
  if i < totalChunks then
    match mapGet (Int.ofNat i) chunks with
    | none => none
    | some c => (collectFrom chunks totalChunks (i + 1)).map (c :: ·)
  else
    some []
  termination_by totalChunks - i
  decreasing_by omega

/-- The finalize reconstruction loop: read stored chunks strictly at indices
`0 .. totalChunks - 1` in ascending order. -/
def collectChunks (chunks : List (Int × List Nat)) (totalChunks : Nat) :
    Option (List (List Nat)) :=
  collectFrom chunks totalChunks 0

/-- `finalizeChunkedUpload`: rejects an unknown session (404), rejects a
`receivedChunks ≠ totalChunks` count mismatch (400 INCOMPLETE_UPLOAD), and a
missing index despite a matching count throws, surfacing as a 500 — in the
two latter cases nothing is stored.  Otherwise the chunks are concatenated
in ascending index order, handed to `storage.set` under the session's
`fileId`, and the session is deleted from the registry. -/
def finalizeChunkedUpload (uploadId : String) (totalChunks : Nat) (st : ServerState) :
    Except UploadError FinalizeResponse × ServerState :=
  match mapGet uploadId st.uploadSessions with
  | none => (.error .sessionNotFound, st)
  | some session =>
    if session.receivedChunks ≠ totalChunks then
      (.error (.incompleteUpload totalChunks session.receivedChunks), st)
    else
      match collectChunks session.chunks totalChunks with
      | none => (.error .finalizeError, st)
      | some parts =>
        let completeFile := parts.flatten
        (.ok { fileId := session.fileId, size := completeFile.length,
               chunks := totalChunks },
         { st with
             storedFiles := st.storedFiles ++ [(session.fileId, completeFile)],
             uploadSessions := mapDelete uploadId st.uploadSessions,
             activeUploads := st.activeUploads - 1 })

/-- `cleanupUpload`: best-effort delete of the stored artifact and removal of
the session; always responds success, even for an unknown id. -/
def cleanupUpload (uploadId : String) (st : ServerState) : ServerState :=
  match mapGet uploadId st.uploadSessions with
  | none => st
  | some session =>
    { st with
        deletedFiles := st.deletedFiles ++ [session.fileId],
        uploadSessions := mapDelete uploadId st.uploadSessions,
        activeUploads := st.activeUploads - 1 }

/-- The reaper's staleness test: `now - session.lastActivity > 3600000`
(one hour), with JS number subtraction agreeing with `Nat` truncated
subtraction on the `false` side when `lastActivity` is in the future. -/
def isStale (now : Nat) (s : Session) : Bool :=
  3600000 < now - s.lastActivity

/-- One sweep of the `setInterval` session reaper (period 300000 ms): every
stale session is deleted from the registry, `activeUploads` is decremented
per reaped session, and a best-effort `storage.delete` of its `fileId` is
issued. -/
def reaperSweep (now : Nat) (st : ServerState) : ServerState :=
  let stale := st.uploadSessions.filter (fun p => isStale now p.2)
  { st with
      uploadSessions := st.uploadSessions.filter (fun p => ¬ isStale now p.2),
      deletedFiles := st.deletedFiles ++ stale.map (fun p => p.2.fileId),
      activeUploads := st.activeUploads - stale.length }

/-- The `/status/:uploadId` route: a snapshot of the session, or 404 if the
session has been finalized, cleaned up or reaped. -/
def statusQuery (uploadId : String) (st : ServerState) :
    Except UploadError StatusResponse :=
  match mapGet uploadId st.uploadSessions with
  | none => .error .sessionNotFound
  | some s =>
    .ok { uploadId := s.uploadId
          receivedChunks := s.receivedChunks
          totalChunks := s.totalChunks
          totalSize := s.totalSize
          lastActivity := s.lastActivity
          createdAt := s.createdAt
          isComplete := s.receivedChunks = s.totalChunks }

/-! ## Client stream chunker (`ChunkedUploader.uploadChunked` read loop) -/

/-- The running `bufferSize` of the chunk buffer: total bytes of the source
buffers collected so far. -/
def bufferSize (acc : List (List Nat)) : Nat :=
  (acc.map List.length).sum

/-- The inner read loop of `uploadChunked`: keep reading source buffers into
`chunkBuffer` while the stream is not done and `bufferSize < chunkSize`.
Returns the filled buffer and the unread remainder of the source. -/
def fillBuffer (chunkSize : Nat) : List (List Nat) → List (List Nat) →
    List (List Nat) × List (List Nat)
  | [], acc => (acc, [])
  | b :: rest, acc =>
    if bufferSize acc < chunkSize then fillBuffer chunkSize rest (acc ++ [b])
    else (acc, b :: rest)

theorem fillBuffer_append (chunkSize : Nat) (src acc : List (List Nat)) :
    (fillBuffer chunkSize src acc).1 ++ (fillBuffer chunkSize src acc).2 = acc ++ src := by
  induction src generalizing acc with
  | nil => simp [fillBuffer]
  | cons b rest ih =>
    by_cases h : bufferSize acc < chunkSize
    · simpa [fillBuffer, h] using ih (acc ++ [b])
    · simp [fillBuffer, h]

/-- The outer `while (!done)` loop of `uploadChunked`, restricted to its
chunk-producing effect: each iteration fills a buffer, concatenates it into a
chunk (`chunkData`), and emits it.  An empty fill means the stream was
exhausted with nothing read, ending the loop. -/
def chunkStream (chunkSize : Nat) (src : List (List Nat)) : List (List Nat) :=
  let p := fillBuffer chunkSize src []
  if h : p.1 = [] then []
  else
    have hlen : p.2.length < src.length := by
      have happ := fillBuffer_append chunkSize src []
      have h1 : p.1.length + p.2.length = src.length := by
        have := congrArg List.length happ
        simpa using this
      have : 0 < p.1.length := List.length_pos.mpr h
      omega
    p.1.flatten :: chunkStream chunkSize p.2
termination_by src.length

/-! ## Client per-chunk retry loop (`ChunkedUploader.uploadChunk`) -/

/-- The `while (retries <= maxRetries)` retry loop of the client's
`uploadChunk`.  `attemptOk n` is the outcome of the `n`-th attempt (0-based).
State: current `retries` counter, number of attempts made so far, and the
backoff delays inserted so far (each `retryDelay * 2^(retries-1)` after the
increment).  Returns (succeeded, total attempts, delays). -/
def uploadChunkRetry (maxRetries retryDelay : Nat) (attemptOk : Nat → Bool) :
    Nat → Nat → List Nat → Bool × Nat × List Nat
  | retries, attemptsMade, delays =>
    if retries ≤ maxRetries then
      if attemptOk attemptsMade then
        (true, attemptsMade + 1, delays)
      else
        if maxRetries < retries + 1 then
          (false, attemptsMade + 1, delays)
        else
          uploadChunkRetry maxRetries retryDelay attemptOk (retries + 1) (attemptsMade + 1)
            (delays ++ [retryDelay * 2 ^ (retries + 1 - 1)])
    else
      (false, attemptsMade, delays)
  termination_by retries _ _ => maxRetries + 1 - retries
  decreasing_by omega

/-- Entry point of the retry loop: `retries = 0`, no attempts, no delays. -/
def uploadChunkAttempts (maxRetries retryDelay : Nat) (attemptOk : Nat → Bool) :
    Bool × Nat × List Nat :=
  uploadChunkRetry maxRetries retryDelay attemptOk 0 0 []

/-! ## Client scheduler window (`uploadChunked` concurrency control) -/

/-- `Math.min(...activeUploads.keys())` followed by
`activeUploads.delete(oldestIndex)`. -/
def removeOldest (active : List Nat) : List Nat :=
  match active.min? with
  | none => active
  | some m => active.erase m

/-- One iteration of the dispatch loop, viewed through the `activeUploads`
map: the new chunk's upload is started and tracked, then, if the window is
full (`activeUploads.size >= maxParallelChunks`), the oldest outstanding
upload is awaited and removed.  Returns the new window and the peak number
of simultaneously outstanding uploads during the iteration. -/
def schedStep (maxParallelChunks : Nat) (active : List Nat) (i : Nat) :
    List Nat × Nat :=
  let a := active ++ [i]
  if maxParallelChunks ≤ a.length then (removeOldest a, a.length)
  else (a, a.length)

/-- Run the dispatch loop over the chunk indices, collecting the peak
in-flight count of every iteration. -/
def schedRun (maxParallelChunks : Nat) : List Nat → List Nat → List Nat × List Nat
  | [], active => (active, [])
  | i :: rest, active =>
    let p := schedStep maxParallelChunks active i
    let q := schedRun maxParallelChunks rest p.1
    (q.1, p.2 :: q.2)

/-! ## Client download poll loop (`FileReceiver.downloadStream`) -/

/-- Terminal failures of the streaming download loop, keeping the
`hung download` error distinguishable from cooperative cancellation. -/
inductive DownloadError
  | hungDownload (progress : Nat)
  | cancelled
  deriving Repr, DecidableEq

/-- The poll loop's mutable state: last observed progress and the
consecutive-no-progress counter. -/
structure PollState where
  prog : Nat
  hangs : Nat
  deriving Repr, DecidableEq

/-- One poll of the service worker: a reply equal to the current progress
increments `hangs`; a reply with different progress resets `hangs` to 0 and
adopts the new progress; a falsy reply changes nothing.  Then
`if (hangs > 30) throw new Error('hung download')`. -/
def pollStep (st : PollState) (msg : Option Nat) : Except DownloadError PollState :=
  let st' :=
    match msg with
    | some p => if p = st.prog then { st with hangs := st.hangs + 1 }
                else { prog := p, hangs := 0 }
    | none => st
  if 30 < st'.hangs then .error (.hungDownload st'.prog) else .ok st'

/-- The `while (prog < size)` poll loop of `downloadStream`, driven by a
finite schedule of poll replies. -/
def pollLoop (size : Nat) : List (Option Nat) → PollState → Except DownloadError PollState
  | [], st => .ok st
  | msg :: rest, st =>
    if st.prog < size then
      match pollStep st msg with
      | .error e => .error e
      | .ok st' => pollLoop size rest st'
    else
      .ok st


/-! ## Concrete scenario fixtures (used to instantiate witnesses) -/

/-- A complete two-chunk session (chunks `0` and `1` present). -/
def sessionW1 : Session :=
  { uploadId := "u", fileId := "f", totalSize := 4, chunkSize := 2,
    totalChunks := 2, receivedChunks := 2,
    chunks := [(0, [10, 11]), (1, [12, 13])],
    createdAt := 0, lastActivity := 0, timeLimit := 300, dlimit := 1,
    securityConfig := {} }

/-- A registry holding just `sessionW1`. -/
def stateW1 : ServerState :=
  { ServerState.initial with uploadSessions := [("u", sessionW1)] }

/-- A verification-enabled session with no chunks yet. -/
def sessionW2 : Session :=
  { uploadId := "v", fileId := "g", totalSize := 6, chunkSize := 2,
    totalChunks := 3, receivedChunks := 0, chunks := [],
    createdAt := 0, lastActivity := 0, timeLimit := 300, dlimit := 1,
    securityConfig := { enableVerification := true } }

/-- A registry holding just `sessionW2`. -/
def stateW2 : ServerState :=
  { ServerState.initial with uploadSessions := [("v", sessionW2)] }

/-- A digest function for scenarios: the decimal sum of the bytes. -/
def hashW (data : List Nat) : String :=
  toString data.sum

/-- A trivially complete session: zero chunks expected, zero received. -/
def sessionW3 : Session :=
  { uploadId := "w", fileId := "h", totalSize := 1, chunkSize := 1,
    totalChunks := 0, receivedChunks := 0, chunks := [],
    createdAt := 0, lastActivity := 0, timeLimit := 300, dlimit := 1,
    securityConfig := {} }

/-- A registry holding just `sessionW3`. -/
def stateW3 : ServerState :=
  { ServerState.initial with uploadSessions := [("w", sessionW3)] }

/-! # Theorems

## General lemmas about the `Map` embedding -/

theorem mapGet_mapSet_self {α β : Type} [DecidableEq α] (k : α) (v : β) (m : List (α × β)) :
    mapGet k (mapSet k v m) = some v := by
  induction m with
  | nil => simp [mapSet, mapGet]
  | cons p rest ih =>
    obtain ⟨k', v'⟩ := p
    by_cases h : k' = k <;> simp [mapSet, mapGet, h, ih]

theorem mapGet_mapSet_ne {α β : Type} [DecidableEq α] (k j : α) (v : β) (m : List (α × β))
    (hne : j ≠ k) : mapGet j (mapSet k v m) = mapGet j m := by
  have hkj : ¬ k = j := fun h => hne h.symm
  induction m with
  | nil => simp [mapSet, mapGet, hkj]
  | cons p rest ih =>
    obtain ⟨k', v'⟩ := p
    by_cases h : k' = k
    · subst h
      simp [mapSet, mapGet, hkj]
    · by_cases h2 : k' = j <;> simp [mapSet, mapGet, h, h2, hne, ih]

theorem mapGet_mapDelete_self {α β : Type} [DecidableEq α] (k : α) (m : List (α × β))
    (hnd : (m.map Prod.fst).Nodup) : mapGet k (mapDelete k m) = none := by
  induction m with
  | nil => simp [mapDelete, mapGet]
  | cons p rest ih =>
    obtain ⟨k', v'⟩ := p
    simp only [List.map_cons, List.nodup_cons] at hnd
    by_cases h : k' = k
    · subst h
      simp only [mapDelete, if_pos rfl]
      -- k does not occur among the remaining keys, so lookup misses
      clear ih
      induction rest with
      | nil => simp [mapGet]
      | cons q tail ih2 =>
        obtain ⟨kq, vq⟩ := q
        simp only [List.map_cons, List.mem_cons, List.nodup_cons] at hnd
        have hkq : kq ≠ k' := fun h => hnd.1 (Or.inl h.symm)
        simp only [mapGet, if_neg hkq]
        exact ih2 ⟨fun hm => hnd.1 (Or.inr hm), hnd.2.2⟩
    · simp only [mapDelete, if_neg h, mapGet, if_neg h]
      exact ih hnd.2

theorem mem_keys_mapSet {α β : Type} [DecidableEq α] (a k : α) (v : β) (m : List (α × β)) :
    a ∈ (mapSet k v m).map Prod.fst ↔ a = k ∨ a ∈ m.map Prod.fst := by
  induction m with
  | nil => simp [mapSet]
  | cons p rest ih =>
    obtain ⟨k', v'⟩ := p
    by_cases h : k' = k
    · subst h
      constructor
      · intro hm
        simpa [mapSet] using hm
      · intro hm
        rcases hm with h1 | h1
        · simp [mapSet, h1]
        · simp only [List.map_cons, List.mem_cons] at h1
          rcases h1 with h2 | h2 <;> simp [mapSet, h2]
    · simp only [mapSet, if_neg h, List.map_cons, List.mem_cons, ih]
      tauto

theorem mapSet_keys_nodup {α β : Type} [DecidableEq α] (k : α) (v : β) (m : List (α × β))
    (hnd : (m.map Prod.fst).Nodup) : ((mapSet k v m).map Prod.fst).Nodup := by
  induction m with
  | nil => simp [mapSet]
  | cons p rest ih =>
    obtain ⟨k', v'⟩ := p
    simp only [List.map_cons, List.nodup_cons] at hnd
    by_cases h : k' = k
    · subst h
      simpa [mapSet, List.nodup_cons] using hnd
    · simp only [mapSet, if_neg h, List.map_cons, List.nodup_cons]
      refine ⟨?_, ih hnd.2⟩
      rw [mem_keys_mapSet]
      push_neg
      exact ⟨h, hnd.1⟩

/-- `mapSet` never shrinks the map: size is old size or old size + 1. -/
theorem mapSet_length {α β : Type} [DecidableEq α] (k : α) (v : β) (m : List (α × β)) :
    (mapSet k v m).length = if mapHas k m then m.length else m.length + 1 := by
  induction m with
  | nil => simp [mapSet, mapHas, mapGet]
  | cons p rest ih =>
    obtain ⟨k', v'⟩ := p
    by_cases h : k' = k <;>
      simp [mapSet, mapHas, mapGet, h, ih, Option.isSome] <;>
      split <;> simp_all [mapHas]

/-- A nonempty chunk buffer stays nonempty through the read loop. -/
theorem fillBuffer_fst_of_acc_ne_nil (chunkSize : Nat) (src acc : List (List Nat))
    (hacc : acc ≠ []) : (fillBuffer chunkSize src acc).1 ≠ [] := by
  induction src generalizing acc with
  | nil => simpa [fillBuffer] using hacc
  | cons b rest ih =>
    by_cases h : bufferSize acc < chunkSize
    · simpa [fillBuffer, h] using ih (acc ++ [b]) (by simp)
    · simpa [fillBuffer, h] using hacc

/-- When the chunk size is positive and the source is nonempty, the filled
buffer is nonempty (the first read always lands in it). -/
theorem fillBuffer_fst_ne_nil (chunkSize : Nat) (hS : 0 < chunkSize)
    (b : List Nat) (rest : List (List Nat)) :
    (fillBuffer chunkSize (b :: rest) []).1 ≠ [] := by
  have hfill : fillBuffer chunkSize (b :: rest) [] = fillBuffer chunkSize rest [b] := by
    simp [fillBuffer, bufferSize, hS]
  rw [hfill]
  exact fillBuffer_fst_of_acc_ne_nil chunkSize rest [b] (by simp)

theorem mapGet_mem {α β : Type} [DecidableEq α] (k : α) (v : β) (m : List (α × β))
    (h : mapGet k m = some v) : (k, v) ∈ m := by
  induction m with
  | nil => simp [mapGet] at h
  | cons p rest ih =>
    obtain ⟨k', v'⟩ := p
    by_cases hk : k' = k
    · subst hk
      simp [mapGet] at h
      simp [h]
    · simp only [mapGet, if_neg hk] at h
      exact List.mem_cons_of_mem _ (ih h)

theorem mapGet_eq_none_of_not_mem_keys {α β : Type} [DecidableEq α] (k : α) (m : List (α × β))
    (h : k ∉ m.map Prod.fst) : mapGet k m = none := by
  induction m with
  | nil => simp [mapGet]
  | cons p rest ih =>
    obtain ⟨k', v'⟩ := p
    simp only [List.map_cons, List.mem_cons, not_or] at h
    have hk : k' ≠ k := fun hh => h.1 hh.symm
    simp only [mapGet, if_neg hk]
    exact ih h.2

/-- Filtering out the (unique) entry of a key makes its lookup miss. -/
theorem mapGet_filter_false {α β : Type} [DecidableEq α] (k : α) (m : List (α × β))
    (p : α × β → Bool) (s : β) (hnd : (m.map Prod.fst).Nodup)
    (hget : mapGet k m = some s) (hp : p (k, s) = false) :
    mapGet k (m.filter p) = none := by
  induction m with
  | nil => simp [mapGet] at hget
  | cons q rest ih =>
    obtain ⟨k', v'⟩ := q
    simp only [List.map_cons, List.nodup_cons] at hnd
    by_cases hk : k' = k
    · subst hk
      simp [mapGet] at hget
      subst hget
      simp only [List.filter_cons, hp]
      apply mapGet_eq_none_of_not_mem_keys
      intro hmem
      obtain ⟨x, hx, hfx⟩ := List.mem_map.mp hmem
      exact hnd.1 (hfx ▸ List.mem_map_of_mem Prod.fst (List.mem_of_mem_filter hx))
    · simp only [mapGet, if_neg hk] at hget
      have htail := ih hnd.2 hget
      simp only [List.filter_cons]
      cases hpv : p (k', v') <;> simp [mapGet, hk, htail]

/-! ## C1-support: the finalize reconstruction loop -/

/-- If any index in `[i, totalChunks)` is absent, the reconstruction loop
fails (the thrown `Missing chunk`). -/
theorem collectFrom_eq_none (chunks : List (Int × List Nat)) (total j : Nat)
    (hj : j < total) (hn : mapGet (Int.ofNat j) chunks = none) :
    ∀ i, i ≤ j → collectFrom chunks total i = none := by
  suffices hgen : ∀ d i, total - i = d → i ≤ j → collectFrom chunks total i = none by
    intro i hij
    exact hgen (total - i) i rfl hij
  intro d
  induction d using Nat.strong_induction_on with
  | _ d ih =>
    intro i hd hij
    have hi : i < total := lt_of_le_of_lt hij hj
    rw [collectFrom]
    simp only [if_pos hi]
    cases hgi : mapGet (Int.ofNat i) chunks with
    | none => rfl
    | some c =>
      have hne : i ≠ j := by
        intro hh
        rw [hh, hn] at hgi
        exact Option.noConfusion hgi
      rw [ih (total - (i + 1)) (by omega) (i + 1) rfl (by omega)]
      rfl

/-- If every index in `[i, totalChunks)` is present, the reconstruction loop
returns exactly the stored chunks in ascending index order. -/
theorem collectFrom_spec (chunks : List (Int × List Nat)) (total : Nat) :
    ∀ i, (∀ j, i ≤ j → j < total → (mapGet (Int.ofNat j) chunks).isSome) →
    ∃ parts, collectFrom chunks total i = some parts ∧ parts.length = total - i ∧
      ∀ k, k < total - i → mapGet (Int.ofNat (i + k)) chunks = some (parts.getD k []) := by
  suffices hgen : ∀ d i, total - i = d →
      (∀ j, i ≤ j → j < total → (mapGet (Int.ofNat j) chunks).isSome) →
      ∃ parts, collectFrom chunks total i = some parts ∧ parts.length = total - i ∧
        ∀ k, k < total - i → mapGet (Int.ofNat (i + k)) chunks = some (parts.getD k []) by
    intro i h
    exact hgen (total - i) i rfl h
  intro d
  induction d using Nat.strong_induction_on with
  | _ d ih =>
    intro i hd h
    by_cases hi : i < total
    · have hsome := h i le_rfl hi
      cases hgi : mapGet (Int.ofNat i) chunks with
      | none =>
        rw [hgi] at hsome
        simp at hsome
      | some c =>
        obtain ⟨parts', hcf, hlen, hidx⟩ :=
          ih (total - (i + 1)) (by omega) (i + 1) rfl
            (fun j hj hjt => h j (by omega) hjt)
        refine ⟨c :: parts', ?_, by simp only [List.length_cons, hlen]; omega, ?_⟩
        · rw [collectFrom]
          simp only [if_pos hi, hcf]
          rw [hgi]
          simp
        · intro k hk
          cases k with
          | zero => simpa using hgi
          | succ k' =>
            have harith : i + (k' + 1) = (i + 1) + k' := by omega
            rw [harith]
            simpa using hidx k' (by omega)
    · refine ⟨[], ?_, by simp only [List.length_nil]; omega, by intro k hk; omega⟩
      rw [collectFrom]
      simp [hi]

/-- C1: Finalize is all-or-nothing.  With the session present: (a) a
received-count mismatch with the declared total fails with
`INCOMPLETE_UPLOAD` and leaves the state — in particular durable storage —
untouched; (b) a matching count with some index in `0..total-1` absent fails
with the thrown missing-chunk error (surfaced as the 500 `FINALIZE_ERROR`)
and leaves the state untouched; (c) only when every index `0..total-1` is
present are the stored chunks concatenated in ascending index order,
persisted under the session's `fileId`, and the session deleted. -/
theorem finalize_all_or_nothing (st : ServerState) (uploadId : String) (total : Nat)
    (session : Session) (hs : mapGet uploadId st.uploadSessions = some session) :
    (session.receivedChunks ≠ total →
      finalizeChunkedUpload uploadId total st =
        (.error (.incompleteUpload total session.receivedChunks), st)) ∧
    (session.receivedChunks = total →
      (∃ j, j < total ∧ mapGet (Int.ofNat j) session.chunks = none) →
      finalizeChunkedUpload uploadId total st = (.error .finalizeError, st)) ∧
    (session.receivedChunks = total →
      (∀ j, j < total → (mapGet (Int.ofNat j) session.chunks).isSome) →
      ∃ parts : List (List Nat),
        parts.length = total ∧
        (∀ k, k < total → mapGet (Int.ofNat k) session.chunks = some (parts.getD k [])) ∧
        finalizeChunkedUpload uploadId total st =
          (.ok { fileId := session.fileId, size := parts.flatten.length, chunks := total },
           { st with
               storedFiles := st.storedFiles ++ [(session.fileId, parts.flatten)],
               uploadSessions := mapDelete uploadId st.uploadSessions,
               activeUploads := st.activeUploads - 1 })) := by
  refine ⟨?_, ?_, ?_⟩
  · intro hne
    simp [finalizeChunkedUpload, hs, hne]
  · intro heq hex
    obtain ⟨j, hj, hnone⟩ := hex
    have hcf := collectFrom_eq_none session.chunks total j hj hnone 0 (Nat.zero_le j)
    simp [finalizeChunkedUpload, hs, heq, collectChunks, hcf]
  · intro heq hall
    obtain ⟨parts, hcf, hlen, hidx⟩ :=
      collectFrom_spec session.chunks total 0 (fun j _ hjt => hall j hjt)
    refine ⟨parts, by simpa using hlen, fun k hk => by simpa using hidx k (by omega), ?_⟩
    simp [finalizeChunkedUpload, hs, heq, collectChunks, hcf]

/-- C1 witness: the concrete complete two-chunk session `sessionW1` declared
with total 3 fails with `INCOMPLETE_UPLOAD` leaving the state untouched, and
declared with total 2 persists an artifact under its `fileId`. -/
theorem finalize_all_or_nothing_witness :
    finalizeChunkedUpload "u" 3 stateW1 =
      (.error (.incompleteUpload 3 2), stateW1) ∧
    (finalizeChunkedUpload "u" 2 stateW1).2.storedFiles.map Prod.fst = ["f"] ∧
    (finalizeChunkedUpload "u" 2 stateW1).2.uploadSessions = [] := by
  refine ⟨(finalize_all_or_nothing stateW1 "u" 3 sessionW1 (by rfl)).1 (by decide), ?_, ?_⟩
  all_goals
    obtain ⟨parts, hlen, hidx, heq⟩ :=
      (finalize_all_or_nothing stateW1 "u" 2 sessionW1 (by rfl)).2.2 rfl (by decide)
    rw [heq]
    simp [stateW1, ServerState.initial, sessionW1, mapDelete]

/-- C3: a declared digest that mismatches the recomputed digest on a
verification-enabled session is rejected with `INTEGRITY_ERROR` and the
server state is returned unchanged — the chunk is neither stored nor
counted. -/
theorem uploadChunk_integrity_reject (hash : List Nat → String) (uploadId : String)
    (chunkIndex : Int) (declared : String) (chunkData : List Nat) (now : Nat)
    (st : ServerState) (session : Session)
    (hid : uploadId ≠ "")
    (hs : mapGet uploadId st.uploadSessions = some session)
    (hdata : chunkData ≠ [])
    (hver : session.securityConfig.enableVerification = true)
    (hmis : hash chunkData ≠ declared) :
    uploadChunk hash uploadId chunkIndex (some declared) chunkData now st =
      (.error .integrityError, st) := by
  simp [uploadChunk, hid, hs, hdata, hver, hmis]

/-- C3 witness: on the verification-enabled `sessionW2`, a chunk whose
declared digest does not match `hashW` of its bytes is rejected and the
state is unchanged. -/
theorem uploadChunk_integrity_reject_witness :
    uploadChunk hashW "v" 0 (some "999") [1, 2] 7 stateW2 =
      (.error .integrityError, stateW2) :=
  uploadChunk_integrity_reject hashW "v" 0 "999" [1, 2] 7 stateW2 sessionW2
    (by decide) (by rfl) (by decide) (by rfl) (by decide)

/-- C10: a chunk upload that declares no digest (missing or empty
`X-Chunk-Hash` header) is stored and counted without any digest
verification — for every session, including one with
`securityConfig.enableVerification = true` — and the outcome does not depend
on the digest function at all. -/
theorem uploadChunk_no_digest_skips_verification (hash hash2 : List Nat → String)
    (uploadId : String) (chunkIndex : Int) (chunkData : List Nat) (now : Nat)
    (declared : String) (st : ServerState) (session : Session)
    (hid : uploadId ≠ "")
    (hs : mapGet uploadId st.uploadSessions = some session)
    (hdata : chunkData ≠ []) :
    ∃ session' : Session,
      session'.chunks = mapSet chunkIndex chunkData session.chunks ∧
      session'.receivedChunks = (mapSet chunkIndex chunkData session.chunks).length ∧
      mapGet chunkIndex session'.chunks = some chunkData ∧
      uploadChunk hash uploadId chunkIndex none chunkData now st =
        (.ok { uploadId := uploadId, chunkIndex := chunkIndex,
               receivedChunks := session'.receivedChunks,
               totalChunks := session.totalChunks,
               isComplete := decide (session'.receivedChunks = session.totalChunks) },
         { st with uploadSessions := mapSet uploadId session' st.uploadSessions }) ∧
      uploadChunk hash uploadId chunkIndex none chunkData now st =
        uploadChunk hash2 uploadId chunkIndex none chunkData now st ∧
      (session.securityConfig.enableVerification = false →
        uploadChunk hash uploadId chunkIndex (some declared) chunkData now st =
          uploadChunk hash2 uploadId chunkIndex (some declared) chunkData now st) := by
  refine ⟨{ session with
              chunks := mapSet chunkIndex chunkData session.chunks,
              receivedChunks := (mapSet chunkIndex chunkData session.chunks).length,
              lastActivity := now },
          rfl, rfl, mapGet_mapSet_self chunkIndex chunkData session.chunks, ?_, ?_, ?_⟩
  · simp [uploadChunk, hid, hs, hdata]
  · simp [uploadChunk, hid, hs, hdata]
  · intro hoff
    simp [uploadChunk, hid, hs, hdata, hoff]

/-- C10 witness: on the verification-enabled `sessionW2`, a chunk sent
without a declared digest is accepted, stored at its index, and the outcome
is identical under a different digest function. -/
theorem uploadChunk_no_digest_skips_verification_witness :
    (uploadChunk hashW "v" 0 none [1, 2] 7 stateW2).1.isOk = true ∧
    uploadChunk hashW "v" 0 none [1, 2] 7 stateW2 =
      uploadChunk (fun _ => "x") "v" 0 none [1, 2] 7 stateW2 ∧
    (mapGet "v" (uploadChunk hashW "v" 0 none [1, 2] 7 stateW2).2.uploadSessions).map
        (fun s => mapGet 0 s.chunks) = some (some [1, 2]) := by
  obtain ⟨s', hchunks, hrc, hget, heq, heq2, -⟩ :=
    uploadChunk_no_digest_skips_verification hashW (fun _ => "x") "v" 0 [1, 2] 7 "d"
      stateW2 sessionW2 (by decide) (by rfl) (by decide)
  refine ⟨by rw [heq]; rfl, heq2, ?_⟩
  rw [heq]
  simp only []
  rw [mapGet_mapSet_self]
  simp [hget]

/-- C5: once a finalize has succeeded (artifact persisted, session deleted),
a second finalize on the same upload id fails with `SESSION_NOT_FOUND`,
returns the state unchanged, and in particular performs no second write to
durable storage. -/
theorem finalize_second_time_not_found (st st' : ServerState) (uploadId : String)
    (total total' : Nat) (resp : FinalizeResponse)
    (hnd : (st.uploadSessions.map Prod.fst).Nodup)
    (h1 : finalizeChunkedUpload uploadId total st = (.ok resp, st')) :
    finalizeChunkedUpload uploadId total' st' = (.error .sessionNotFound, st') ∧
    (finalizeChunkedUpload uploadId total' st').2.storedFiles = st'.storedFiles := by
  have hdel : st'.uploadSessions = mapDelete uploadId st.uploadSessions := by
    simp only [finalizeChunkedUpload] at h1
    cases hm : mapGet uploadId st.uploadSessions with
    | none =>
      rw [hm] at h1
      simp at h1
    | some session =>
      rw [hm] at h1
      by_cases hrc : session.receivedChunks ≠ total
      · simp [hrc] at h1
      · simp only [hrc, if_false] at h1
        cases hcc : collectChunks session.chunks total with
        | none =>
          rw [hcc] at h1
          simp at h1
        | some parts =>
          rw [hcc] at h1
          simp only [Prod.mk.injEq] at h1
          rw [← h1.2]
  have hget : mapGet uploadId st'.uploadSessions = none := by
    rw [hdel]
    exact mapGet_mapDelete_self uploadId st.uploadSessions hnd
  constructor
  · simp [finalizeChunkedUpload, hget]
  · simp [finalizeChunkedUpload, hget]

/-- C5 witness: finalizing the trivially complete `sessionW3` succeeds and
deletes it; finalizing the same upload id again reports `SESSION_NOT_FOUND`
and leaves the post-state unchanged. -/
theorem finalize_second_time_not_found_witness :
    finalizeChunkedUpload "w" 5
        { ServerState.initial with storedFiles := [("h", [])], activeUploads := -1 } =
      (.error .sessionNotFound,
        { ServerState.initial with storedFiles := [("h", [])], activeUploads := -1 }) := by
  have hcf : collectFrom ([] : List (Int × List Nat)) 0 0 = some [] := by
    rw [collectFrom]
    simp
  have h1 : finalizeChunkedUpload "w" 0 stateW3 =
      (.ok { fileId := "h", size := 0, chunks := 0 },
       { ServerState.initial with storedFiles := [("h", [])], activeUploads := -1 }) := by
    simp [finalizeChunkedUpload, stateW3, sessionW3, mapGet, collectChunks, hcf, mapDelete,
      ServerState.initial]
  exact (finalize_second_time_not_found stateW3 _ "w" 0 5 _ (by decide) h1).1

/-- C6 counterexample: the claimed invariant `receivedChunks ≤ totalChunks`
fails on the code.  Init a 1-byte file with 1-byte chunks (`totalChunks = 1`),
then upload chunks at indices 0 and 1 — both are accepted, because the
server never validates a chunk index against the declared total — leaving a
registered session with `receivedChunks = 2 > 1 = totalChunks`. -/
theorem registry_invariant_counterexample :
    ((uploadChunk (fun _ => "") "u1" 0 none [7] 5
        (initChunkedUpload "u1" "f1" 1 true 1 300 1 {} 0 ServerState.initial).2).1).isOk = true ∧
    ((uploadChunk (fun _ => "") "u1" 1 none [8] 6
        (uploadChunk (fun _ => "") "u1" 0 none [7] 5
          (initChunkedUpload "u1" "f1" 1 true 1 300 1 {} 0 ServerState.initial).2).2).1).isOk
      = true ∧
    (mapGet "u1"
        ((uploadChunk (fun _ => "") "u1" 1 none [8] 6
          (uploadChunk (fun _ => "") "u1" 0 none [7] 5
            (initChunkedUpload "u1" "f1" 1 true 1 300 1 {} 0
              ServerState.initial).2).2).2).uploadSessions).map Session.totalChunks
      = some 1 ∧
    (mapGet "u1"
        ((uploadChunk (fun _ => "") "u1" 1 none [8] 6
          (uploadChunk (fun _ => "") "u1" 0 none [7] 5
            (initChunkedUpload "u1" "f1" 1 true 1 300 1 {} 0
              ServerState.initial).2).2).2).uploadSessions).map Session.receivedChunks
      = some 2 := by
  decide

/-- C6 amended: what the accept path does maintain.  An accepted chunk upload
keeps the chunk-map keys unique (each index occurs at most once), keeps
`receivedChunks` equal to the chunk-map size, and grows the map by at most
one entry — but the server performs no validation of the index against the
declared `totalChunks`, so `receivedChunks` is *not* bounded by
`totalChunks` (see the counterexample). -/
theorem uploadChunk_registry_invariants (hash : List Nat → String) (uploadId : String)
    (chunkIndex : Int) (chunkHash : Option String) (chunkData : List Nat) (now : Nat)
    (st : ServerState) (session : Session) (resp : ChunkResponse) (st' : ServerState)
    (hs : mapGet uploadId st.uploadSessions = some session)
    (hnd : (session.chunks.map Prod.fst).Nodup)
    (hrc : session.receivedChunks = session.chunks.length)
    (h : uploadChunk hash uploadId chunkIndex chunkHash chunkData now st = (.ok resp, st')) :
    ∃ session' : Session,
      mapGet uploadId st'.uploadSessions = some session' ∧
      (session'.chunks.map Prod.fst).Nodup ∧
      session'.receivedChunks = session'.chunks.length ∧
      session.chunks.length ≤ session'.chunks.length ∧
      session'.chunks.length ≤ session.chunks.length + 1 := by
  by_cases hid : uploadId = ""
  · simp [uploadChunk, hid] at h
  · simp only [uploadChunk, if_neg hid, hs] at h
    by_cases hd0 : chunkData.length = 0
    · simp [hd0] at h
    · simp only [if_neg hd0] at h
      split at h
      · simp at h
      · simp only [Prod.mk.injEq, Except.ok.injEq] at h
        refine ⟨{ session with
                    chunks := mapSet chunkIndex chunkData session.chunks,
                    receivedChunks := (mapSet chunkIndex chunkData session.chunks).length,
                    lastActivity := now }, ?_, ?_, rfl, ?_, ?_⟩
        · rw [← h.2]
          exact mapGet_mapSet_self uploadId _ st.uploadSessions
        · exact mapSet_keys_nodup chunkIndex chunkData session.chunks hnd
        · have := mapSet_length chunkIndex chunkData session.chunks
          rw [this]
          split <;> omega
        · have := mapSet_length chunkIndex chunkData session.chunks
          rw [this]
          split <;> omega

/-- C6-amended witness: accepting a chunk on the fresh `sessionW2` yields a
registered session with uniquely-indexed chunks and a matching count. -/
theorem uploadChunk_registry_invariants_witness :
    (mapGet "v" (uploadChunk hashW "v" 0 none [1, 2] 7 stateW2).2.uploadSessions).map
        (fun s => decide (s.chunks.map Prod.fst).Nodup &&
                  decide (s.receivedChunks = s.chunks.length)) = some true := by
  obtain ⟨s', hmap, hnd, hrc, -, -⟩ :=
    uploadChunk_registry_invariants hashW "v" 0 none [1, 2] 7 stateW2 sessionW2
      { uploadId := "v", chunkIndex := 0, receivedChunks := 1, totalChunks := 3,
        isComplete := false }
      (uploadChunk hashW "v" 0 none [1, 2] 7 stateW2).2
      (by rfl) (by decide) (by rfl) (by rfl)
  rw [hmap]
  simp only [Option.map_some']
  rw [decide_eq_true hnd, decide_eq_true hrc]
  rfl

/-- C8: a session whose last-activity age strictly exceeds the one-hour
staleness threshold at a reaper sweep is removed from the registry with a
best-effort `storage.delete` of its artifact — exactly the effect of
explicit cleanup on that id — and a subsequent status query for the upload
id answers `SESSION_NOT_FOUND`. -/
theorem reaper_reaps_stale (now : Nat) (st : ServerState) (uploadId : String) (s : Session)
    (hnd : (st.uploadSessions.map Prod.fst).Nodup)
    (hs : mapGet uploadId st.uploadSessions = some s)
    (hstale : 3600000 < now - s.lastActivity) :
    mapGet uploadId (reaperSweep now st).uploadSessions = none ∧
    statusQuery uploadId (reaperSweep now st) = .error .sessionNotFound ∧
    s.fileId ∈ (reaperSweep now st).deletedFiles ∧
    mapGet uploadId (cleanupUpload uploadId st).uploadSessions = none ∧
    s.fileId ∈ (cleanupUpload uploadId st).deletedFiles := by
  have hstaleB : isStale now s = true := by
    simp [isStale]
    exact hstale
  have hgone : mapGet uploadId (reaperSweep now st).uploadSessions = none := by
    simp only [reaperSweep]
    exact mapGet_filter_false uploadId st.uploadSessions _ s hnd hs (by simp [hstaleB])
  refine ⟨hgone, ?_, ?_, ?_, ?_⟩
  · simp [statusQuery, hgone]
  · simp only [reaperSweep]
    apply List.mem_append_right
    refine List.mem_map.mpr ⟨(uploadId, s), ?_, rfl⟩
    exact List.mem_filter.mpr ⟨mapGet_mem uploadId s st.uploadSessions hs, by simp [hstaleB]⟩
  · simp only [cleanupUpload, hs]
    exact mapGet_mapDelete_self uploadId st.uploadSessions hnd
  · simp [cleanupUpload, hs]

/-- C8 witness: at time 3600001 the sweep reaps `sessionW1` (idle since 0),
the status query then misses, and explicit cleanup has the same effect. -/
theorem reaper_reaps_stale_witness :
    mapGet "u" (reaperSweep 3600001 stateW1).uploadSessions = none ∧
    statusQuery "u" (reaperSweep 3600001 stateW1) = .error .sessionNotFound ∧
    "f" ∈ (reaperSweep 3600001 stateW1).deletedFiles ∧
    mapGet "u" (cleanupUpload "u" stateW1).uploadSessions = none ∧
    "f" ∈ (cleanupUpload "u" stateW1).deletedFiles :=
  reaper_reaps_stale 3600001 stateW1 "u" sessionW1 (by decide) (by rfl) (by decide)

/-! ## C2-support: the client stream chunker -/

theorem chunkStream_nil (chunkSize : Nat) : chunkStream chunkSize [] = [] := by
  rw [chunkStream]
  simp [fillBuffer]

/-- The chunker loses no bytes and adds none: flattening its output gives
back exactly the source bytes. -/
theorem chunkStream_flatten (chunkSize : Nat) (hS : 0 < chunkSize)
    (src : List (List Nat)) : (chunkStream chunkSize src).flatten = src.flatten := by
  suffices hgen : ∀ n src, List.length src = n →
      (chunkStream chunkSize src).flatten = src.flatten by
    exact hgen src.length src rfl
  intro n
  induction n using Nat.strong_induction_on with
  | _ n ih =>
    intro src hlen
    cases src with
    | nil => simp [chunkStream_nil]
    | cons b rest =>
      have hne : (fillBuffer chunkSize (b :: rest) []).1 ≠ [] :=
        fillBuffer_fst_ne_nil chunkSize hS b rest
      have happ := fillBuffer_append chunkSize (b :: rest) []
      have hlt : (fillBuffer chunkSize (b :: rest) []).2.length < n := by
        have hlens := congrArg List.length happ
        simp only [List.length_append, List.nil_append] at hlens
        have hpos : 0 < (fillBuffer chunkSize (b :: rest) []).1.length :=
          List.length_pos.mpr hne
        omega
      rw [chunkStream]
      simp only [dif_neg hne, List.flatten_cons]
      rw [ih _ hlt _ rfl]
      rw [← List.flatten_append, happ]
      simp

/-- Flattening byte-at-a-time buffers gives back the bytes. -/
theorem flatten_singles (l : List Nat) : (l.map fun b => [b]).flatten = l := by
  induction l with
  | nil => simp
  | cons b rest ih => simp [ih]

/-- On a byte-at-a-time source the read loop collects exactly
`chunkSize - bufferSize acc` further bytes. -/
theorem fillBuffer_singles (chunkSize : Nat) (l : List Nat) :
    ∀ acc, fillBuffer chunkSize (l.map fun b => [b]) acc =
      (acc ++ (l.take (chunkSize - bufferSize acc)).map fun b => [b],
       (l.drop (chunkSize - bufferSize acc)).map fun b => [b]) := by
  induction l with
  | nil => intro acc; simp [fillBuffer]
  | cons b rest ih =>
    intro acc
    by_cases h : bufferSize acc < chunkSize
    · have hstep : fillBuffer chunkSize ((b :: rest).map fun b => [b]) acc
          = fillBuffer chunkSize (rest.map fun b => [b]) (acc ++ [[b]]) := by
        simp [fillBuffer, h]
      rw [hstep, ih (acc ++ [[b]])]
      have hbs : bufferSize (acc ++ [[b]]) = bufferSize acc + 1 := by
        simp [bufferSize]
      rw [hbs]
      have hSb : chunkSize - bufferSize acc = (chunkSize - (bufferSize acc + 1)) + 1 := by
        omega
      rw [hSb]
      simp [List.take_succ_cons, List.drop_succ_cons]
    · have h0 : chunkSize - bufferSize acc = 0 := by omega
      simp [fillBuffer, h, h0]

/-- On a byte-at-a-time nonempty source the chunker takes exactly
`chunkSize` bytes per chunk. -/
theorem chunkStream_singles (chunkSize : Nat) (hS : 0 < chunkSize) (l : List Nat)
    (hl : l ≠ []) :
    chunkStream chunkSize (l.map fun b => [b]) =
      l.take chunkSize :: chunkStream chunkSize ((l.drop chunkSize).map fun b => [b]) := by
  have hfb := fillBuffer_singles chunkSize l []
  have hbs0 : bufferSize ([] : List (List Nat)) = 0 := by simp [bufferSize]
  rw [hbs0, Nat.sub_zero, List.nil_append] at hfb
  have htake : l.take chunkSize ≠ [] := by
    intro hh
    rcases List.take_eq_nil_iff.mp hh with h1 | h1
    · omega
    · exact hl h1
  have hne : (fillBuffer chunkSize (l.map fun b => [b]) []).1 ≠ [] := by
    rw [hfb]
    simpa using htake
  rw [chunkStream]
  simp only [dif_neg hne]
  rw [hfb]
  rw [flatten_singles]

theorem chunkStream_singles_length (chunkSize : Nat) (hS : 0 < chunkSize) (l : List Nat) :
    (chunkStream chunkSize (l.map fun b => [b])).length
      = (l.length + chunkSize - 1) / chunkSize := by
  suffices hgen : ∀ n l, List.length l = n →
      (chunkStream chunkSize (l.map fun b => [b])).length
        = (l.length + chunkSize - 1) / chunkSize by
    exact hgen l.length l rfl
  intro n
  induction n using Nat.strong_induction_on with
  | _ n ih =>
    intro l hlen
    cases hl : l with
    | nil =>
      simp only [List.map_nil, chunkStream_nil, List.length_nil]
      rw [Nat.div_eq_of_lt (by omega)]
    | cons b rest =>
      rw [← hl]
      have hlne : l ≠ [] := by rw [hl]; exact List.cons_ne_nil b rest
      have hlpos : 0 < l.length := List.length_pos.mpr hlne
      rw [chunkStream_singles chunkSize hS l hlne]
      have hdlt : (l.drop chunkSize).length < n := by
        rw [List.length_drop]
        omega
      rw [List.length_cons, ih _ hdlt _ rfl, List.length_drop]
      have harith : l.length + chunkSize - 1 = (l.length - 1) + chunkSize := by omega
      rw [harith, Nat.add_div_right _ hS]
      by_cases hLS : l.length ≤ chunkSize
      · have h1 : l.length - chunkSize = 0 := by omega
        rw [h1, Nat.zero_add, Nat.div_eq_of_lt (by omega), Nat.div_eq_of_lt (by omega)]
      · have h2 : l.length - chunkSize + chunkSize - 1 = l.length - 1 := by omega
        rw [h2]

/-- On a byte-at-a-time source every chunk except possibly the last has size
exactly `chunkSize`. -/
theorem chunkStream_singles_sizes (chunkSize : Nat) (hS : 0 < chunkSize) (l : List Nat) :
    ∀ c ∈ (chunkStream chunkSize (l.map fun b => [b])).dropLast, c.length = chunkSize := by
  suffices hgen : ∀ n l, List.length l = n →
      ∀ c ∈ (chunkStream chunkSize (l.map fun b => [b])).dropLast, c.length = chunkSize by
    exact hgen l.length l rfl
  intro n
  induction n using Nat.strong_induction_on with
  | _ n ih =>
    intro l hlen c hc
    by_cases hlne : l = []
    · subst hlne
      simp [chunkStream_nil] at hc
    · rw [chunkStream_singles chunkSize hS l hlne] at hc
      by_cases hdrop : l.drop chunkSize = []
      · rw [hdrop] at hc
        simp only [List.map_nil, chunkStream_nil] at hc
        simp at hc
      · have hcs : chunkStream chunkSize ((l.drop chunkSize).map fun b => [b]) ≠ [] := by
          rw [chunkStream_singles chunkSize hS _ hdrop]
          exact List.cons_ne_nil _ _
        obtain ⟨c0, cs', hcs'⟩ := List.exists_cons_of_ne_nil hcs
        rw [hcs', List.dropLast_cons₂, List.mem_cons] at hc
        rcases hc with hceq | hcmem
        · subst hceq
          rw [List.length_take]
          have hlt : chunkSize < l.length := by
            by_contra hcon
            push_neg at hcon
            exact hdrop (List.drop_eq_nil_of_le hcon)
          omega
        · have hdl : (l.drop chunkSize).length < n := by
            rw [List.length_drop]
            have := List.length_pos.mpr hlne
            omega
          exact ih _ hdl _ rfl c (by rw [hcs']; exact hcmem)

/-- C2 amended: for every chunk size `S > 0` the chunker's output,
concatenated in index order, reproduces the input bytes exactly; and when
the source delivers its bytes one byte per buffer, the chunk count equals
`ceil(L / S)` and every chunk except possibly the last has size exactly `S`.
(For coarser source buffers a chunk may overshoot `S`, so the count/size
clauses do not hold for arbitrary streams — see the counterexample.) -/
theorem chunker_correct (chunkSize : Nat) (hS : 0 < chunkSize)
    (src : List (List Nat)) (l : List Nat) :
    (chunkStream chunkSize src).flatten = src.flatten ∧
    (chunkStream chunkSize (l.map fun b => [b])).length
      = (l.length + chunkSize - 1) / chunkSize ∧
    ∀ c ∈ (chunkStream chunkSize (l.map fun b => [b])).dropLast, c.length = chunkSize :=
  ⟨chunkStream_flatten chunkSize hS src,
   chunkStream_singles_length chunkSize hS l,
   chunkStream_singles_sizes chunkSize hS l⟩

/-- C2 counterexample: with chunk size 2 and a single 3-byte source buffer
the chunker emits ONE chunk of 3 bytes instead of `ceil(3/2) = 2` chunks:
the inner read loop only stops once `bufferSize ≥ chunkSize`, so a chunk can
exceed the configured chunk size by up to one source buffer. -/
theorem chunker_counterexample :
    chunkStream 2 [[0, 1, 2]] = [[0, 1, 2]] ∧
    (([0, 1, 2] : List Nat).length + 2 - 1) / 2 = 2 ∧
    (chunkStream 2 [[0, 1, 2]]).length ≠ 2 := by
  have h2 : chunkStream 2 [[0, 1, 2]] = [[0, 1, 2]] := by
    rw [chunkStream]
    simp [fillBuffer, bufferSize, chunkStream_nil]
  exact ⟨h2, by decide, by rw [h2]; decide⟩

/-- C2 witness: chunk size 2 on a concrete source; byte-at-a-time input
`[9, 8, 7]` yields `ceil(3/2) = 2` chunks with every non-final chunk of
size 2. -/
theorem chunker_correct_witness :
    (chunkStream 2 [[0, 1], [2]]).flatten = [[0, 1], [2]].flatten ∧
    (chunkStream 2 ([9, 8, 7].map fun b => [b])).length
      = (([9, 8, 7] : List Nat).length + 2 - 1) / 2 ∧
    ((chunkStream 2 ([9, 8, 7].map fun b => [b])).dropLast.all
        fun c => c.length = 2) = true := by
  obtain ⟨h1, h2, h3⟩ := chunker_correct 2 (by decide) [[0, 1], [2]] [9, 8, 7]
  exact ⟨h1, h2, List.all_eq_true.mpr fun c hc => decide_eq_true (h3 c hc)⟩

/-! ## C4: client retry/backoff -/

/-- When every attempt fails, the retry loop starting at `retries` makes
`maxRetries + 1 - retries` further attempts and inserts the geometric
backoff delays `retryDelay * 2^retries, ..., retryDelay * 2^(maxRetries-1)`
before returning failure. -/
theorem uploadChunkRetry_all_fail (maxRetries retryDelay : Nat) (attemptOk : Nat → Bool)
    (hfail : ∀ n, attemptOk n = false) :
    ∀ retries attemptsMade delays, retries ≤ maxRetries →
      uploadChunkRetry maxRetries retryDelay attemptOk retries attemptsMade delays =
        (false, attemptsMade + (maxRetries + 1 - retries),
         delays ++ (List.range' retries (maxRetries - retries)).map
           fun i => retryDelay * 2 ^ i) := by
  suffices hgen : ∀ d retries attemptsMade delays, maxRetries - retries = d →
      retries ≤ maxRetries →
      uploadChunkRetry maxRetries retryDelay attemptOk retries attemptsMade delays =
        (false, attemptsMade + (maxRetries + 1 - retries),
         delays ++ (List.range' retries (maxRetries - retries)).map
           fun i => retryDelay * 2 ^ i) by
    intro retries attemptsMade delays hle
    exact hgen (maxRetries - retries) retries attemptsMade delays rfl hle
  intro d
  induction d using Nat.strong_induction_on with
  | _ d ih =>
    intro retries attemptsMade delays hd hle
    rw [uploadChunkRetry]
    simp only [if_pos hle, hfail attemptsMade, Bool.false_eq_true, if_false]
    by_cases hlast : maxRetries < retries + 1
    · have h0 : maxRetries - retries = 0 := by omega
      have h1 : maxRetries + 1 - retries = 1 := by omega
      simp [hlast, h0, h1]
    · have hlt : maxRetries - (retries + 1) < d := by omega
      rw [if_neg hlast, ih _ hlt (retries + 1) (attemptsMade + 1)
        (delays ++ [retryDelay * 2 ^ (retries + 1 - 1)]) rfl (by omega)]
      have hm : maxRetries - retries = (maxRetries - (retries + 1)) + 1 := by omega
      refine Prod.ext rfl (Prod.ext (by simp; omega) ?_)
      rw [hm, List.range'_succ, List.map_cons, List.append_assoc]
      simp

/-- C4: when every attempt fails, a chunk upload fails permanently after
exactly `maxRetries + 1` attempts (the thrown error then aborts the
transfer), and the backoff delay inserted before the `k`-th retry attempt
(1-based) is `retryDelay * 2^(k-1)` — 0-based, the delay list is
`[retryDelay * 2^0, ..., retryDelay * 2^(maxRetries-1)]`. -/
theorem uploadChunk_retry_exhaustion (maxRetries retryDelay : Nat) (attemptOk : Nat → Bool)
    (hfail : ∀ n, attemptOk n = false) :
    uploadChunkAttempts maxRetries retryDelay attemptOk =
      (false, maxRetries + 1, (List.range maxRetries).map fun k => retryDelay * 2 ^ k) := by
  have h := uploadChunkRetry_all_fail maxRetries retryDelay attemptOk hfail 0 0 []
    (Nat.zero_le _)
  rw [List.range_eq_range']
  simpa [uploadChunkAttempts] using h

/-- C4 witness: with the default configuration (3 retries, 1000 ms base
delay) and all attempts failing, there are exactly 4 attempts and the delays
are 1000, 2000, 4000 ms. -/
theorem uploadChunk_retry_exhaustion_witness :
    uploadChunkAttempts 3 1000 (fun _ => false) = (false, 4, [1000, 2000, 4000]) := by
  rw [uploadChunk_retry_exhaustion 3 1000 (fun _ => false) (fun _ => rfl)]
  rfl

/-! ## C7: download hang detection -/

/-- Feeding `n` consecutive same-progress replies to the poll loop counts
them; the loop raises `hung download` exactly when the counter passes 30. -/
theorem pollLoop_replicate_same (size p : Nat) (hlt : p < size) :
    ∀ n k, k ≤ 30 → pollLoop size (List.replicate n (some p)) { prog := p, hangs := k } =
      if k + n ≤ 30 then .ok { prog := p, hangs := k + n }
      else .error (.hungDownload p) := by
  intro n
  induction n with
  | zero =>
    intro k hk
    simp [pollLoop, hk]
  | succ n ih =>
    intro k hk
    rw [List.replicate_succ]
    simp only [pollLoop, if_pos hlt]
    by_cases h30 : k = 30
    · subst h30
      have hstep : pollStep { prog := p, hangs := 30 } (some p) =
          .error (.hungDownload p) := by
        simp [pollStep]
      rw [hstep]
      have : ¬ (30 + (n + 1) ≤ 30) := by omega
      simp [this]
    · have hk1 : k + 1 ≤ 30 := by omega
      have hstep : pollStep { prog := p, hangs := k } (some p) =
          .ok { prog := p, hangs := k + 1 } := by
        simp [pollStep]
        omega
      rw [hstep]
      show pollLoop size (List.replicate n (some p)) { prog := p, hangs := k + 1 } =
        if k + (n + 1) ≤ 30 then Except.ok { prog := p, hangs := k + (n + 1) }
        else Except.error (DownloadError.hungDownload p)
      rw [ih (k + 1) hk1]
      have harith : k + 1 + n = k + (n + 1) := by omega
      rw [harith]

/-- C7 corrected: the hang counter must strictly exceed 30, so the `hung
download` liveness failure is raised on the 31st consecutive no-progress
poll — 30 such polls do not yet raise it — and any poll that reports changed
progress resets the counter to zero. -/
theorem hang_detection (size p h0 q : Nat) (hlt : p < size) (hq : q ≠ p) :
    pollLoop size (List.replicate 31 (some p)) { prog := p, hangs := 0 } =
      .error (.hungDownload p) ∧
    pollLoop size (List.replicate 30 (some p)) { prog := p, hangs := 0 } =
      .ok { prog := p, hangs := 30 } ∧
    pollStep { prog := p, hangs := h0 } (some q) = .ok { prog := q, hangs := 0 } := by
  refine ⟨?_, ?_, ?_⟩
  · have h := pollLoop_replicate_same size p hlt 31 0 (by omega)
    simpa using h
  · have h := pollLoop_replicate_same size p hlt 30 0 (by omega)
    simpa using h
  · simp [pollStep, hq]

/-- C7 counterexample: the claim as stated — 30 consecutive no-progress
polls raise the failure — is false: after exactly 30 such polls the loop is
still running normally (`hangs = 30`, no error), because the code tests
`hangs > 30`. -/
theorem hang_detection_counterexample :
    (pollLoop 10 (List.replicate 30 (some 0)) { prog := 0, hangs := 0 }).toOption =
      some { prog := 0, hangs := 30 } := by
  decide

/-- C7 witness: in a concrete download of size 10 stalled at progress 0, the
31st consecutive no-progress poll raises `hung download`, and a progress
change resets the counter from 7 to 0. -/
theorem hang_detection_witness :
    pollLoop 10 (List.replicate 31 (some 0)) { prog := 0, hangs := 0 } =
      .error (.hungDownload 0) ∧
    pollLoop 10 (List.replicate 30 (some 0)) { prog := 0, hangs := 0 } =
      .ok { prog := 0, hangs := 30 } ∧
    pollStep { prog := 0, hangs := 7 } (some 3) = .ok { prog := 3, hangs := 0 } :=
  hang_detection 10 0 7 3 (by decide) (by decide)

/-! ## C9: bounded concurrency of the upload scheduler -/

/-- Removing the oldest entry from a nonempty window shrinks it by one. -/
theorem removeOldest_length (a : List Nat) (ha : a ≠ []) :
    (removeOldest a).length + 1 = a.length := by
  simp only [removeOldest]
  cases hmin : a.min? with
  | none =>
    rw [List.min?_eq_none_iff] at hmin
    exact absurd hmin ha
  | some m =>
    have hmem : m ∈ a := List.min?_mem (by intro x y; omega) hmin
    exact List.length_erase_add_one hmem

/-- The dispatch-loop invariant: starting strictly below the window bound,
every iteration's peak in-flight count stays at or below the bound and the
window re-enters the loop strictly below it. -/
theorem schedRun_peaks_le (maxParallelChunks : Nat) :
    ∀ idxs active, active.length < maxParallelChunks →
      (∀ peak ∈ (schedRun maxParallelChunks idxs active).2, peak ≤ maxParallelChunks) ∧
      (schedRun maxParallelChunks idxs active).1.length < maxParallelChunks := by
  intro idxs
  induction idxs with
  | nil =>
    intro active ha
    exact ⟨by simp [schedRun], by simpa [schedRun] using ha⟩
  | cons i rest ih =>
    intro active ha
    have hpeak : (schedStep maxParallelChunks active i).2 = active.length + 1 := by
      simp only [schedStep]
      split <;> simp
    have hnext : (schedStep maxParallelChunks active i).1.length < maxParallelChunks := by
      simp only [schedStep]
      split
      · have hlen := removeOldest_length (active ++ [i]) (by simp)
        simp only [List.length_append, List.length_cons, List.length_nil] at hlen ⊢
        omega
      · rename_i hcond
        simp only [List.length_append, List.length_cons, List.length_nil] at hcond ⊢
        omega
    obtain ⟨ihp, ihl⟩ := ih (schedStep maxParallelChunks active i).1 hnext
    constructor
    · intro peak hpk
      simp only [schedRun, List.mem_cons] at hpk
      rcases hpk with hpk | hpk
      · rw [hpk, hpeak]
        omega
      · exact ihp peak hpk
    · simpa [schedRun] using ihl

/-- C9: the `activeUploads` window of the chunk dispatch loop — the set of
concurrently outstanding chunk operations — never holds more than
`maxParallelChunks` entries at any instant: each iteration's peak, reached
right after dispatching a new chunk, is at most the bound, because once the
bound is reached the loop awaits (and removes) the oldest outstanding upload
before dispatching the next chunk. -/
theorem scheduler_bounded_concurrency (maxParallelChunks : Nat)
    (hpos : 0 < maxParallelChunks) (idxs : List Nat) :
    ∀ peak ∈ (schedRun maxParallelChunks idxs []).2, peak ≤ maxParallelChunks :=
  (schedRun_peaks_le maxParallelChunks idxs [] (by simpa using hpos)).1

/-- C9 witness: with the default window of 3 and six chunks, every
iteration's peak in-flight count is at most 3. -/
theorem scheduler_bounded_concurrency_witness :
    ((schedRun 3 [0, 1, 2, 3, 4, 5] []).2.all fun peak => peak ≤ 3) = true := by
  have h := scheduler_bounded_concurrency 3 (by decide) [0, 1, 2, 3, 4, 5]
  exact List.all_eq_true.mpr fun x hx => decide_eq_true (h x hx)

end Send
